import Mathlib

/-!
# Verification of the multiboot information-structure walker

Shallow embedding of `src/multiboot.rs`: the cursor-based `ByteReader`,
the tag scanner `Multiboot::parse`, and the lazy memory-map entry
iterator `MemoryAreas`, together with proofs of the documented
properties of the design.

Modelling conventions:
* Machine integers are `Nat` with explicit wrap-around: pointers and
  `usize` arithmetic wrap modulo `2 ^ 64` (written `U`), the `u32`
  subtraction in `MemoryAreas::new` wraps modulo `2 ^ 32`.
* Memory is a total function from addresses to byte values; a `u8` load
  takes the stored value modulo 256 (a `*const u8` cell holds a byte).
* The unbounded `loop` in `Multiboot::parse` is modelled with explicit
  fuel: a `none` result means the loop did not terminate within the
  given fuel.
* `u32` division by zero is a Rust panic; it is modelled by `Nat`
  division (which yields 0), and every statement about the entry count
  assumes `entry_size > 0`.
-/

/-- `2 ^ 64`, the wrap-around modulus of `usize` / pointer arithmetic. -/
def U : Nat := 2 ^ 64

theorem U_val : U = 18446744073709551616 := by norm_num [U]

/-- Memory: a total map from addresses to byte values (`*const u8`). -/
def Mem : Type := Nat → Nat

/-- `struct ByteReader { cursor: *const u8 }`. -/
structure ByteReader where
  cursor : Nat
  deriving DecidableEq

namespace ByteReader

/-- `ByteReader::new(start)`. -/
def new (start : Nat) : ByteReader := ⟨start⟩

/-- `ByteReader::skip`: `self.cursor = self.cursor.offset(amount as isize)`.
Pointer arithmetic wraps modulo `2 ^ 64`. -/
def skip (r : ByteReader) (amount : Nat) : ByteReader :=
  ⟨(r.cursor + amount) % U⟩

/-- `ByteReader::align`: `(cursor + align - 1) & !(align - 1)` in 64-bit
arithmetic.  For `1 ≤ a ≤ U` the complement `!(a - 1)` equals
`(U - a) % U`. -/
def align (r : ByteReader) (a : Nat) : ByteReader :=
  ⟨((r.cursor + a - 1) % U) &&& ((U - a) % U)⟩

/-- `ByteReader::read_u8`: load the byte at the cursor, advance by 1. -/
def read_u8 (r : ByteReader) (m : Mem) : Nat × ByteReader :=
  (m r.cursor % 256, r.skip 1)

/-- `ByteReader::read_u32`: four little-endian bytes combined with `|`
and `<<`, in source order. -/
def read_u32 (r : ByteReader) (m : Mem) : Nat × ByteReader :=
  let p0 := r.read_u8 m
  let p1 := p0.2.read_u8 m
  let p2 := p1.2.read_u8 m
  let p3 := p2.2.read_u8 m
  (p0.1 ||| p1.1 <<< 8 ||| p2.1 <<< 16 ||| p3.1 <<< 24, p3.2)

/-- `ByteReader::read_u64`: `for i in 0..8 { result |= byte << (i << 3) }`. -/
def read_u64 (r : ByteReader) (m : Mem) : Nat × ByteReader :=
  (List.range 8).foldl
    (fun acc i =>
      let p := acc.2.read_u8 m
      (acc.1 ||| p.1 <<< (i <<< 3), p.2))
    (0, r)

end ByteReader

/-- The skip amount `size as usize - 8` computed by the scanner for each
tag: wrapping `usize` subtraction (`size` is a `u32` value, so
`size < U`). -/
def tagSkipAmount (size : Nat) : Nat := (size + U - 8) % U

/-- `pub struct Multiboot { start: *const u8, memory_map: *const u8 }`.
The null pointer (`ptr::null()`) is address 0. -/
structure Multiboot where
  start : Nat
  memory_map : Nat
  deriving DecidableEq

/-- The `loop` body of `Multiboot::parse` with explicit fuel.  Each
iteration records the tag start, reads the type and size `u32`s, skips
`size - 8` bytes, aligns to 8, then dispatches on the type: type 6
records the tag start (and continues), type 0 stops, everything else is
skipped. -/
def parseLoop (m : Mem) : Nat → ByteReader → Nat → Option Nat
  | 0, _, _ => none
  | fuel + 1, r, memory_map =>
    let cursor := r.cursor
    let pk := r.read_u32 m
    let ps := pk.2.read_u32 m
    let r3 := (ps.2.skip (tagSkipAmount ps.1)).align 8
    if pk.1 = 6 then parseLoop m fuel r3 cursor
    else if pk.1 = 0 then some memory_map
    else parseLoop m fuel r3 memory_map

/-- `Multiboot::new` (which initialises `memory_map` to null and runs
`parse`): read the 4-byte total size (discarded) and the 4-byte reserved
field, then scan the tags. -/
def Multiboot.new (m : Mem) (fuel : Nat) (start : Nat) : Option Multiboot :=
  let r := ByteReader.new start
  let p1 := r.read_u32 m
  let p2 := p1.2.read_u32 m
  (parseLoop m fuel p2.2 0).map fun mm => { start := start, memory_map := mm }

/-- `pub struct MemoryArea` with the field layout documented in the
source: u64 base address, u64 length, u32 type code, u32 reserved. -/
structure MemoryArea where
  base_addr : Nat
  length : Nat
  kind : Nat
  reserved : Nat
  deriving DecidableEq

/-- `pub enum MemoryAreaType { Usable, Unusable }`. -/
inductive MemoryAreaType where
  | Usable
  | Unusable
  deriving DecidableEq

/-- `MemoryArea::base()`. -/
def MemoryArea.base (a : MemoryArea) : Nat := a.base_addr

/-- `MemoryArea::size()`. -/
def MemoryArea.size (a : MemoryArea) : Nat := a.length

/-- `MemoryArea::kind()` (named `kindType` here because the raw field is
already called `kind`): type code 1 is `Usable`, anything else
`Unusable`. -/
def MemoryArea.kindType (a : MemoryArea) : MemoryAreaType :=
  if a.kind = 1 then MemoryAreaType.Usable else MemoryAreaType.Unusable

/-- The view `&*(entry_ptr as *const MemoryArea)` produced by the
iterator: decode the four little-endian record fields at `addr`. -/
def readArea (m : Mem) (addr : Nat) : MemoryArea :=
  let r0 := ByteReader.new addr
  let pb := r0.read_u64 m
  let pl := pb.2.read_u64 m
  let pk := pl.2.read_u32 m
  let pr := pk.2.read_u32 m
  { base_addr := pb.1, length := pl.1, kind := pk.1, reserved := pr.1 }

/-- `pub struct MemoryAreas`: the lazy memory-map entry iterator. -/
structure MemoryAreas where
  reader : ByteReader
  entry_size : Nat
  entry_count : Nat
  current_entry : Nat
  deriving DecidableEq

/-- `MemoryAreas::new`: consume the 16-byte tag header (type, total
size, entry size, entry version) and derive
`entry_count = (total_size - 16) / entry_size`; the `u32` subtraction
wraps modulo `2 ^ 32`. -/
def MemoryAreas.new (m : Mem) (reader : ByteReader) : MemoryAreas :=
  let p1 := reader.read_u32 m
  let p2 := p1.2.read_u32 m
  let p3 := p2.2.read_u32 m
  let p4 := p3.2.read_u32 m
  let entries_size := (p2.1 + 2 ^ 32 - 16) % 2 ^ 32
  let entry_count := entries_size / p3.1
  { reader := p4.2, entry_size := p3.1, entry_count := entry_count,
    current_entry := 0 }

/-- `Multiboot::memory_areas`: unconditionally build the iterator from a
reader at the recorded `memory_map` pointer (0 when no type-6 tag was
found). -/
def Multiboot.memory_areas (mb : Multiboot) (m : Mem) : MemoryAreas :=
  MemoryAreas.new m (ByteReader.new mb.memory_map)

/-- `<MemoryAreas as Iterator>::next`: if all entries have been
produced, yield nothing and leave the state untouched; otherwise
capture the cursor as the entry address, bump `current_entry`, advance
the reader by `entry_size`, and yield the record view at the captured
address. -/
def MemoryAreas.next (s : MemoryAreas) (m : Mem) :
    Option MemoryArea × MemoryAreas :=
  if s.current_entry ≥ s.entry_count then (none, s)
  else
    let entry_ptr := s.reader.cursor
    (some (readArea m entry_ptr),
     { s with current_entry := s.current_entry + 1,
              reader := s.reader.skip s.entry_size })

/-! ## Observers used in specifications -/

/-- Call `next` up to `t` times, collecting the yielded records. -/
def takeAreas (m : Mem) : Nat → MemoryAreas → List MemoryArea
  | 0, _ => []
  | t + 1, s =>
    match s.next m with
    | (some a, s1) => a :: takeAreas m t s1
    | (none, _) => []

/-- The iterator state after `k` calls to `next`. -/
def stepN (m : Mem) : Nat → MemoryAreas → MemoryAreas
  | 0, s => s
  | k + 1, s => ((stepN m k s).next m).2

/-- Ghost observer of the scan: the `(tag start, tag type)` pairs read
by `parseLoop`, ending with the terminating tag; `none` when the fuel
runs out.  Proven below to determine `parseLoop`'s result. -/
def scanTags (m : Mem) : Nat → ByteReader → Option (List (Nat × Nat))
  | 0, _ => none
  | fuel + 1, r =>
    let cursor := r.cursor
    let pk := r.read_u32 m
    let ps := pk.2.read_u32 m
    let r3 := (ps.2.skip (tagSkipAmount ps.1)).align 8
    if pk.1 = 0 then some [(cursor, 0)]
    else (scanTags m fuel r3).map fun l => (cursor, pk.1) :: l

/-- The `memory_map` value produced by a scan trace: the start of the
last type-6 tag, or the initial value `d` when there is none. -/
def lastMM (l : List (Nat × Nat)) (d : Nat) : Nat :=
  l.foldl (fun acc p => if p.2 = 6 then p.1 else acc) d

/-! ## Test-fixture buffers -/

/-- A memory image laid out from address 0 (bytes past the end are 0). -/
def memOf (l : List Nat) : Mem := fun a => l.getD a 0

/-- Little-endian byte encoding of a `u32` value. -/
def encodeU32 (v : Nat) : List Nat :=
  [v % 256, v / 2 ^ 8 % 256, v / 2 ^ 16 % 256, v / 2 ^ 24 % 256]

/-- Little-endian byte encoding of a `u64` value. -/
def encodeU64 (v : Nat) : List Nat :=
  [v % 256, v / 2 ^ 8 % 256, v / 2 ^ 16 % 256, v / 2 ^ 24 % 256,
   v / 2 ^ 32 % 256, v / 2 ^ 40 % 256, v / 2 ^ 48 % 256, v / 2 ^ 56 % 256]

/-- The 24 bytes of one memory-map entry. -/
def encodeEntry (e : MemoryArea) : List Nat :=
  encodeU64 e.base_addr ++ (encodeU64 e.length ++
    (encodeU32 e.kind ++ encodeU32 e.reserved))

/-- Concatenated encodings of a list of entries. -/
def encodeEntries : List MemoryArea → List Nat
  | [] => []
  | e :: es => encodeEntry e ++ encodeEntries es

/-- A complete structure buffer: 8-byte header, one memory-map tag
(type 6, size `16 + 24 * N`, entry size 24, entry version 0) holding
the given entries, then the terminating tag (type 0, size 8). -/
def buildStructure (el : List MemoryArea) : List Nat :=
  encodeU32 (40 + 24 * el.length) ++ (encodeU32 0 ++
    (encodeU32 6 ++ (encodeU32 (16 + 24 * el.length) ++
      (encodeU32 24 ++ (encodeU32 0 ++
        (encodeEntries el ++ (encodeU32 0 ++ encodeU32 8)))))))

/-- A memory holding the byte 1 everywhere: every tag read has type
`0x01010101`, never the terminator, so the scan never stops. -/
def onesMem : Mem := fun _ => 1

/-- Fixture for the C1 counterexample: a structure at address 64 whose
only tag is the terminator (no type-6 tag anywhere), while the bytes at
address 0 — where the null `memory_map` pointer points — happen to look
like a memory-map tag header (total size 40, entry size 24) followed by
one record (base 0x100000, length 0x1000, type 1). -/
def c1bytes : List Nat :=
  encodeU32 0 ++ (encodeU32 40 ++ (encodeU32 24 ++ (encodeU32 0 ++
    (encodeU64 1048576 ++ (encodeU64 4096 ++ (encodeU32 1 ++ (encodeU32 0 ++
      (List.replicate 24 0 ++ (encodeU32 16 ++ (encodeU32 0 ++
        (encodeU32 0 ++ encodeU32 8)))))))))))

def c1mem : Mem := memOf c1bytes

/-- Fixture for C9: a structure with two type-6 tags (at 8 and 48)
before the terminator (at 72). -/
def c9bytes : List Nat :=
  encodeU32 80 ++ (encodeU32 0 ++
    (encodeU32 6 ++ (encodeU32 40 ++ (encodeU32 24 ++ (encodeU32 0 ++
      (List.replicate 24 0 ++
        (encodeU32 6 ++ (encodeU32 24 ++ (encodeU32 24 ++ (encodeU32 0 ++
          (List.replicate 8 0 ++ (encodeU32 0 ++ encodeU32 8))))))))))))

def c9mem : Mem := memOf c9bytes

/-! ## Arithmetic and reader lemmas -/

theorem U_pos : 0 < U := by rw [U_val]; omega

theorem or_shift_eq_add {x d n : Nat} (hx : x < 2 ^ n) :
    x ||| d <<< n = 2 ^ n * d + x := by
  rw [Nat.shiftLeft_eq, Nat.or_comm, Nat.mul_comm d (2 ^ n),
    ← Nat.mul_add_lt_is_or hx]

theorem read_u8_def (m : Mem) (c : Nat) :
    ByteReader.read_u8 ⟨c⟩ m = (m c % 256, ⟨(c + 1) % U⟩) := rfl

/-- The reader part of `read_u32` only advances the cursor by 4. -/
theorem read_u32_reader (r : ByteReader) (m : Mem) :
    (r.read_u32 m).2 = ⟨(r.cursor + 4) % U⟩ := by
  obtain ⟨c⟩ := r
  simp only [ByteReader.read_u32, ByteReader.read_u8, ByteReader.skip,
    Nat.mod_add_mod, ByteReader.mk.injEq]

/-- Reading a `u32` whose four little-endian bytes encode `v`. -/
theorem read_u32_eq {m : Mem} {c v : Nat} (hv : v < 2 ^ 32) (hc : c + 4 < U)
    (h0 : m c = v % 256) (h1 : m (c + 1) = v / 2 ^ 8 % 256)
    (h2 : m (c + 2) = v / 2 ^ 16 % 256) (h3 : m (c + 3) = v / 2 ^ 24 % 256) :
    ByteReader.read_u32 ⟨c⟩ m = (v, ⟨c + 4⟩) := by
  have m1 : (c + 1) % U = c + 1 := Nat.mod_eq_of_lt (by omega)
  have m2 : (c + 1 + 1) % U = c + 2 := by rw [Nat.mod_eq_of_lt (by omega)]
  have m3 : (c + 2 + 1) % U = c + 3 := by rw [Nat.mod_eq_of_lt (by omega)]
  have m4 : (c + 3 + 1) % U = c + 4 := by rw [Nat.mod_eq_of_lt (by omega)]
  have hd0 : v % 256 < 256 := Nat.mod_lt _ (by norm_num)
  have hd1 : v / 2 ^ 8 % 256 < 256 := Nat.mod_lt _ (by norm_num)
  have hd2 : v / 2 ^ 16 % 256 < 256 := Nat.mod_lt _ (by norm_num)
  have hd3 : v / 2 ^ 24 % 256 < 256 := Nat.mod_lt _ (by norm_num)
  simp only [ByteReader.read_u32, ByteReader.read_u8, ByteReader.skip, m1, m2,
    m3, m4, h0, h1, h2, h3, Prod.mk.injEq]
  refine ⟨?_, trivial⟩
  rw [Nat.mod_eq_of_lt hd0, Nat.mod_eq_of_lt hd1, Nat.mod_eq_of_lt hd2,
    Nat.mod_eq_of_lt hd3]
  rw [or_shift_eq_add (n := 8) (by omega)]
  rw [or_shift_eq_add (n := 16) (by norm_num at hd0 hd1 ⊢; omega)]
  rw [or_shift_eq_add (n := 24) (by norm_num at hd0 hd1 hd2 ⊢; omega)]
  norm_num at hv hd0 hd1 hd2 hd3 ⊢
  omega

theorem range8_eq : List.range 8 = [0, 1, 2, 3, 4, 5, 6, 7] := by decide

/-- The reader part of `read_u64` only advances the cursor by 8. -/
theorem read_u64_reader (r : ByteReader) (m : Mem) :
    (r.read_u64 m).2 = ⟨(r.cursor + 8) % U⟩ := by
  obtain ⟨c⟩ := r
  simp only [ByteReader.read_u64, range8_eq, List.foldl, ByteReader.read_u8,
    ByteReader.skip, Nat.mod_add_mod, ByteReader.mk.injEq]

/-- Splitting off the low byte of a truncated quotient. -/
theorem digit_split (x n j : Nat) :
    x / 2 ^ n % 2 ^ (8 + j) =
      x / 2 ^ n % 2 ^ 8 + 2 ^ 8 * (x / 2 ^ (n + 8) % 2 ^ j) := by
  rw [pow_add, Nat.mod_mul, Nat.div_div_eq_div_mul, ← pow_add]

/-- Recomposing a `u64` from its eight little-endian base-256 digits. -/
theorem digits8_spec (v : Nat) (hv : v < 2 ^ 64) :
    2 ^ 56 * (v / 2 ^ 56 % 256) + (2 ^ 48 * (v / 2 ^ 48 % 256) +
      (2 ^ 40 * (v / 2 ^ 40 % 256) + (2 ^ 32 * (v / 2 ^ 32 % 256) +
        (2 ^ 24 * (v / 2 ^ 24 % 256) + (2 ^ 16 * (v / 2 ^ 16 % 256) +
          (2 ^ 8 * (v / 2 ^ 8 % 256) + v % 256)))))) = v := by
  have e0 : v % 2 ^ (8 + 56) = v % 2 ^ 8 + 2 ^ 8 * (v / 2 ^ 8 % 2 ^ 56) := by
    rw [pow_add, Nat.mod_mul]
  have e1 := digit_split v 8 48
  have e2 := digit_split v 16 40
  have e3 := digit_split v 24 32
  have e4 := digit_split v 32 24
  have e5 := digit_split v 40 16
  have e6 := digit_split v 48 8
  have hfin : v % 2 ^ (8 + 56) = v := Nat.mod_eq_of_lt (by norm_num; omega)
  norm_num at e0 e1 e2 e3 e4 e5 e6 hfin ⊢
  omega

/-- A byte-weighted sum stays below the next power. -/
theorem partial_lt {n x d : Nat} (hx : x < 2 ^ n) (hd : d < 256) :
    2 ^ n * d + x < 2 ^ (n + 8) :=
  calc 2 ^ n * d + x < 2 ^ n * d + 2 ^ n := by omega
    _ = 2 ^ n * (d + 1) := by ring
    _ ≤ 2 ^ n * 256 := Nat.mul_le_mul_left _ (by omega)
    _ = 2 ^ (n + 8) := by rw [pow_add]; norm_num

/-- Reading a `u64` whose eight little-endian bytes encode `v`. -/
theorem read_u64_eq {m : Mem} {c v : Nat} (hv : v < 2 ^ 64) (hc : c + 8 < U)
    (h0 : m c = v % 256) (h1 : m (c + 1) = v / 2 ^ 8 % 256)
    (h2 : m (c + 2) = v / 2 ^ 16 % 256) (h3 : m (c + 3) = v / 2 ^ 24 % 256)
    (h4 : m (c + 4) = v / 2 ^ 32 % 256) (h5 : m (c + 5) = v / 2 ^ 40 % 256)
    (h6 : m (c + 6) = v / 2 ^ 48 % 256) (h7 : m (c + 7) = v / 2 ^ 56 % 256) :
    ByteReader.read_u64 ⟨c⟩ m = (v, ⟨c + 8⟩) := by
  have m1 : (c + 1) % U = c + 1 := Nat.mod_eq_of_lt (by omega)
  have m2 : (c + 1 + 1) % U = c + 2 := by rw [Nat.mod_eq_of_lt (by omega)]
  have m3 : (c + 2 + 1) % U = c + 3 := by rw [Nat.mod_eq_of_lt (by omega)]
  have m4 : (c + 3 + 1) % U = c + 4 := by rw [Nat.mod_eq_of_lt (by omega)]
  have m5 : (c + 4 + 1) % U = c + 5 := by rw [Nat.mod_eq_of_lt (by omega)]
  have m6 : (c + 5 + 1) % U = c + 6 := by rw [Nat.mod_eq_of_lt (by omega)]
  have m7 : (c + 6 + 1) % U = c + 7 := by rw [Nat.mod_eq_of_lt (by omega)]
  have m8 : (c + 7 + 1) % U = c + 8 := by rw [Nat.mod_eq_of_lt (by omega)]
  have hd0 : v % 256 < 256 := Nat.mod_lt _ (by norm_num)
  have hd1 : v / 2 ^ 8 % 256 < 256 := Nat.mod_lt _ (by norm_num)
  have hd2 : v / 2 ^ 16 % 256 < 256 := Nat.mod_lt _ (by norm_num)
  have hd3 : v / 2 ^ 24 % 256 < 256 := Nat.mod_lt _ (by norm_num)
  have hd4 : v / 2 ^ 32 % 256 < 256 := Nat.mod_lt _ (by norm_num)
  have hd5 : v / 2 ^ 40 % 256 < 256 := Nat.mod_lt _ (by norm_num)
  have hd6 : v / 2 ^ 48 % 256 < 256 := Nat.mod_lt _ (by norm_num)
  have hd7 : v / 2 ^ 56 % 256 < 256 := Nat.mod_lt _ (by norm_num)
  have q0 : v % 256 < 2 ^ 8 := hd0
  have q1 := partial_lt (n := 8) q0 hd1
  have q2 := partial_lt (n := 16) q1 hd2
  have q3 := partial_lt (n := 24) q2 hd3
  have q4 := partial_lt (n := 32) q3 hd4
  have q5 := partial_lt (n := 40) q4 hd5
  have q6 := partial_lt (n := 48) q5 hd6
  simp only [ByteReader.read_u64, range8_eq, List.foldl, ByteReader.read_u8,
    ByteReader.skip, m1, m2, m3, m4, m5, m6, m7, m8, h0, h1, h2, h3, h4, h5,
    h6, h7, Prod.mk.injEq]
  refine ⟨?_, trivial⟩
  rw [Nat.mod_eq_of_lt hd0, Nat.mod_eq_of_lt hd1, Nat.mod_eq_of_lt hd2,
    Nat.mod_eq_of_lt hd3, Nat.mod_eq_of_lt hd4, Nat.mod_eq_of_lt hd5,
    Nat.mod_eq_of_lt hd6, Nat.mod_eq_of_lt hd7]
  have s0 : (0 : Nat) <<< 3 = 0 := rfl
  have s1 : (1 : Nat) <<< 3 = 8 := rfl
  have s2 : (2 : Nat) <<< 3 = 16 := rfl
  have s3 : (3 : Nat) <<< 3 = 24 := rfl
  have s4 : (4 : Nat) <<< 3 = 32 := rfl
  have s5 : (5 : Nat) <<< 3 = 40 := rfl
  have s6 : (6 : Nat) <<< 3 = 48 := rfl
  have s7 : (7 : Nat) <<< 3 = 56 := rfl
  rw [s0, s1, s2, s3, s4, s5, s6, s7, Nat.shiftLeft_zero, Nat.zero_or]
  rw [or_shift_eq_add (n := 8) q0, or_shift_eq_add (n := 16) q1,
    or_shift_eq_add (n := 24) q2, or_shift_eq_add (n := 32) q3,
    or_shift_eq_add (n := 40) q4, or_shift_eq_add (n := 48) q5,
    or_shift_eq_add (n := 56) q6]
  exact digits8_spec v hv

/-! ## Alignment arithmetic -/

/-- Masking with `!(2 ^ k - 1)` (that is, `U - 2 ^ k` in 64 bits) clears
the low `k` bits: for `x < U` it equals `2 ^ k * (x / 2 ^ k)`. -/
theorem land_mask (x k : Nat) (hk : k ≤ 64) (hx : x < U) :
    x &&& (U - 2 ^ k) = 2 ^ k * (x / 2 ^ k) := by
  have hmul : 2 ^ k * 2 ^ (64 - k) = U := by
    rw [U, ← pow_add]
    congr 1
    omega
  have hmask : U - 2 ^ k = 2 ^ k * (2 ^ (64 - k) - 1) := by
    have h1 : 1 ≤ 2 ^ (64 - k) := Nat.one_le_two_pow
    have h2 : 2 ^ k * (2 ^ (64 - k) - 1) + 2 ^ k = 2 ^ k * 2 ^ (64 - k) := by
      rw [← Nat.mul_succ]
      congr 1
      omega
    omega
  apply Nat.eq_of_testBit_eq
  intro i
  rw [Nat.testBit_and, hmask, Nat.testBit_mul_pow_two,
    ← Nat.shiftRight_eq_div_pow, Nat.testBit_mul_pow_two,
    Nat.testBit_shiftRight, Nat.testBit_two_pow_sub_one]
  by_cases hik : k ≤ i
  · have hki : k + (i - k) = i := by omega
    rw [hki]
    by_cases hi64 : i < 64
    · simp [hik, show i - k < 64 - k by omega]
    · have : x.testBit i = false := by
        apply Nat.testBit_lt_two_pow
        calc x < U := hx
          _ = 2 ^ 64 := rfl
          _ ≤ 2 ^ i := Nat.pow_le_pow_right (by omega) (by omega)
      simp [this]
  · simp [show ¬(i ≥ k) by omega]

/-- `align 8` lands on `8 * ((cursor + 7) % U / 8)`. -/
theorem align8_eq (r : ByteReader) :
    r.align 8 = ⟨8 * (((r.cursor + 7) % U) / 8)⟩ := by
  have hU := U_val
  have h1 : (U - 8) % U = U - 8 := Nat.mod_eq_of_lt (by omega)
  have h2 := land_mask ((r.cursor + 8 - 1) % U) 3 (by omega)
    (Nat.mod_lt _ (by omega))
  unfold ByteReader.align
  have h3 : r.cursor + 8 - 1 = r.cursor + 7 := by omega
  rw [h3] at h2
  rw [show ((2 : Nat) ^ 3) = 8 from rfl] at h2
  rw [h3, h1, h2]

/-- After `align 8` the cursor is always a multiple of 8. -/
theorem align8_mod (r : ByteReader) : (r.align 8).cursor % 8 = 0 := by
  rw [align8_eq]
  simp [Nat.mul_mod_right]

/-- `align 8` is a no-op on an already aligned in-range cursor. -/
theorem align8_noop {c : Nat} (h8 : c % 8 = 0) (hc : c < U) :
    ByteReader.align ⟨c⟩ 8 = ⟨c⟩ := by
  have hU := U_val
  rw [align8_eq]
  have h7 : (c + 7) % U = c + 7 := Nat.mod_eq_of_lt (by omega)
  simp only [h7]
  congr 1
  omega

/-! ## The wrapping skip amount -/

/-- In the normal case (`size ≥ 8`) the skip amount is `size - 8`. -/
theorem tagSkipAmount_eq {size : Nat} (h8 : 8 ≤ size) (hs : size < U) :
    tagSkipAmount size = size - 8 := by
  unfold tagSkipAmount
  rw [U_val] at hs ⊢
  omega

/-- With a declared size below 8 the subtraction wraps around `2 ^ 64`. -/
theorem tagSkipAmount_underflow {size : Nat} (h : size < 8) :
    tagSkipAmount size = U - (8 - size) := by
  unfold tagSkipAmount
  rw [U_val]
  omega

/-! ## The scan and its trace -/

theorem lastMM_cons (p : Nat × Nat) (l : List (Nat × Nat)) (d : Nat) :
    lastMM (p :: l) d = lastMM l (if p.2 = 6 then p.1 else d) := rfl

/-- When no trace element has type 6, the fold keeps the initial value. -/
theorem lastMM_of_no6 {l : List (Nat × Nat)} (h : ∀ p ∈ l, p.2 ≠ 6)
    (d : Nat) : lastMM l d = d := by
  induction l generalizing d with
  | nil => rfl
  | cons p l ih =>
    rw [lastMM_cons, if_neg (h p (by simp))]
    exact ih (fun q hq => h q (by simp [hq])) d

/-- `lastMM` is the first component of the last type-6 element. -/
theorem lastMM_eq_getLastD (l : List (Nat × Nat)) (d : Nat) :
    lastMM l d = ((l.filter fun p => p.2 == 6).map Prod.fst).getLastD d := by
  induction l generalizing d with
  | nil => rfl
  | cons p l ih =>
    rw [lastMM_cons, List.filter_cons]
    by_cases h6 : p.2 = 6
    · rw [if_pos h6, if_pos (by simp [h6])]
      simp only [List.map_cons, List.getLastD_cons]
      exact ih p.1
    · rw [if_neg h6, if_neg (by simp [h6])]
      exact ih d

/-- The scanner's result is the start of the last type-6 tag of the
trace (or the initial `memory_map` value when there is none). -/
theorem parseLoop_eq_scanTags (m : Mem) :
    ∀ (fuel : Nat) (r : ByteReader) (mm : Nat),
      parseLoop m fuel r mm = (scanTags m fuel r).map fun l => lastMM l mm := by
  intro fuel
  induction fuel with
  | zero => intro r mm; rfl
  | succ fuel ih =>
    intro r mm
    simp only [parseLoop, scanTags]
    by_cases h6 : (r.read_u32 m).1 = 6
    · have h0 : ¬((r.read_u32 m).1 = 0) := by omega
      rw [if_pos h6, if_neg h0, ih]
      generalize scanTags m fuel _ = osc
      cases osc with
      | none => rfl
      | some l => simp [lastMM_cons, h6]
    · by_cases h0 : (r.read_u32 m).1 = 0
      · rw [if_neg h6, if_pos h0, if_pos h0]
        simp [lastMM_cons, lastMM]
      · rw [if_neg h6, if_neg h0, if_neg h0, ih]
        generalize scanTags m fuel _ = osc
        cases osc with
        | none => rfl
        | some l => simp [lastMM_cons, h6]

/-- Every successful scan trace ends with the (first) terminating tag:
the last element has type 0 and no earlier element does. -/
theorem scanTags_shape (m : Mem) :
    ∀ (fuel : Nat) (r : ByteReader) (l : List (Nat × Nat)),
      scanTags m fuel r = some l →
      (∃ c0, l.getLast? = some (c0, 0)) ∧ ∀ p ∈ l.dropLast, p.2 ≠ 0 := by
  intro fuel
  induction fuel with
  | zero => intro r l h; simp [scanTags] at h
  | succ fuel ih =>
    intro r l h
    simp only [scanTags] at h
    by_cases h0 : (r.read_u32 m).1 = 0
    · rw [if_pos h0] at h
      obtain rfl : [(r.cursor, 0)] = l := by simpa using h
      refine ⟨⟨r.cursor, rfl⟩, ?_⟩
      simp
    · rw [if_neg h0] at h
      obtain ⟨l1, hsc, rfl⟩ := Option.map_eq_some'.mp h
      obtain ⟨⟨c0, hlast⟩, hdrop⟩ := ih _ l1 hsc
      have hne : l1 ≠ [] := by
        intro hnil
        rw [hnil] at hlast
        simp at hlast
      obtain ⟨a, l2, rfl⟩ := List.exists_cons_of_ne_nil hne
      refine ⟨⟨c0, ?_⟩, ?_⟩
      · rw [List.getLast?_cons_cons]
        exact hlast
      · intro p hp
        rw [List.dropLast_cons₂] at hp
        rcases List.mem_cons.mp hp with hp1 | hp2
        · rw [hp1]
          exact h0
        · exact hdrop p hp2

theorem read_u32_onesMem (r : ByteReader) :
    (r.read_u32 onesMem).1 = 16843009 := by
  show 1 ||| 1 <<< 8 ||| 1 <<< 16 ||| 1 <<< 24 = 16843009
  decide

/-- On `onesMem` the scan walks forever: no amount of fuel suffices. -/
theorem parseLoop_onesMem_none :
    ∀ (fuel : Nat) (r : ByteReader) (mm : Nat),
      parseLoop onesMem fuel r mm = none := by
  intro fuel
  induction fuel with
  | zero => intro r mm; rfl
  | succ fuel ih =>
    intro r mm
    simp only [parseLoop, read_u32_onesMem]
    norm_num
    exact ih _ _

/-- `Multiboot::new` is the scan started just past the 8-byte structure
header, with `memory_map` initialised to null; the total-size field's
value does not occur (it is read and discarded). -/
theorem Multiboot_new_eq (m : Mem) (fuel start : Nat) :
    Multiboot.new m fuel start =
      (parseLoop m fuel (ByteReader.new ((start + 8) % U)) 0).map
        fun mm => { start := start, memory_map := mm } := by
  simp only [Multiboot.new]
  rw [read_u32_reader, read_u32_reader]
  simp only [ByteReader.new, Nat.mod_add_mod]

/-! ## Iterator lemmas -/

/-- `next` on an exhausted iterator: nothing is yielded and the state is
returned unchanged. -/
theorem MemoryAreas_next_none (m : Mem) {s : MemoryAreas}
    (h : s.entry_count ≤ s.current_entry) : s.next m = (none, s) := by
  unfold MemoryAreas.next
  rw [if_pos (by omega)]

/-- `next` on a non-exhausted iterator: the record at the captured
cursor is yielded, the counter is bumped, the cursor advances by
`entry_size`. -/
theorem MemoryAreas_next_some (m : Mem) {s : MemoryAreas}
    (h : s.current_entry < s.entry_count) :
    s.next m = (some (readArea m s.reader.cursor),
      { s with current_entry := s.current_entry + 1,
               reader := s.reader.skip s.entry_size }) := by
  unfold MemoryAreas.next
  rw [if_neg (by omega)]

/-- The iterator yields exactly `entry_count - current_entry` records
(capped by the number of calls made). -/
theorem takeAreas_length (m : Mem) :
    ∀ (t : Nat) (s : MemoryAreas),
      (takeAreas m t s).length = min t (s.entry_count - s.current_entry) := by
  intro t
  induction t with
  | zero => intro s; simp [takeAreas]
  | succ t ih =>
    intro s
    by_cases h : s.current_entry < s.entry_count
    · rw [takeAreas, MemoryAreas_next_some m h]
      simp only [List.length_cons, ih]
      omega
    · rw [takeAreas, MemoryAreas_next_none m (by omega)]
      simp only [List.length_nil]
      omega

/-- Once exhausted, any number of further `next` calls leaves the state
untouched. -/
theorem stepN_frozen (m : Mem) {s : MemoryAreas}
    (h : s.entry_count ≤ s.current_entry) : ∀ k, stepN m k s = s := by
  intro k
  induction k with
  | zero => rfl
  | succ k ih => rw [stepN, ih, MemoryAreas_next_none m h]

/-- The state after `k` successful steps from a fresh iterator: the
cursor has advanced by `k * entry_size` and `current_entry` is `k`. -/
theorem stepN_run (m : Mem) (es cnt c0 : Nat) (hU : c0 + cnt * es < U) :
    ∀ k, k ≤ cnt →
      stepN m k ⟨⟨c0⟩, es, cnt, 0⟩ = ⟨⟨c0 + k * es⟩, es, cnt, k⟩ := by
  intro k
  induction k with
  | zero => simp [stepN]
  | succ k ih =>
    intro hk
    have hmul : (k + 1) * es ≤ cnt * es := Nat.mul_le_mul_right es hk
    have hsucc : (k + 1) * es = k * es + es := Nat.succ_mul k es
    rw [stepN, ih (by omega), MemoryAreas_next_some m (by simpa using by omega)]
    simp only [ByteReader.skip]
    congr 2
    rw [Nat.mod_eq_of_lt (by omega)]
    omega

/-! ## Buffer layout lemmas -/

theorem getD_skip : ∀ (l1 l2 : List Nat) (i : Nat),
    (l1 ++ l2).getD (l1.length + i) 0 = l2.getD i 0 := by
  intro l1
  induction l1 with
  | nil => simp
  | cons a l1 ih =>
    intro l2 i
    have h : l1.length + 1 + i = (l1.length + i) + 1 := by omega
    simp only [List.cons_append, List.length_cons, h, List.getD_cons_succ]
    exact ih l2 i

theorem getD_skip_n {l1 : List Nat} {n : Nat} (l2 : List Nat)
    (h : l1.length = n) (i : Nat) :
    (l1 ++ l2).getD (n + i) 0 = l2.getD i 0 := by
  subst h
  exact getD_skip l1 l2 i

theorem getD_within : ∀ (l1 l2 : List Nat) (i : Nat), i < l1.length →
    (l1 ++ l2).getD i 0 = l1.getD i 0 := by
  intro l1
  induction l1 with
  | nil => intro l2 i h; simp at h
  | cons a l1 ih =>
    intro l2 i h
    cases i with
    | zero => rfl
    | succ i =>
      simp only [List.cons_append, List.getD_cons_succ]
      exact ih l2 i (by simp at h; omega)

theorem encodeU32_length (v : Nat) : (encodeU32 v).length = 4 := rfl

theorem encodeU64_length (v : Nat) : (encodeU64 v).length = 8 := rfl

theorem encodeEntry_length (e : MemoryArea) : (encodeEntry e).length = 24 := by
  simp [encodeEntry, encodeU64, encodeU32]

theorem encodeEntries_length (el : List MemoryArea) :
    (encodeEntries el).length = 24 * el.length := by
  induction el with
  | nil => rfl
  | cons e el ih =>
    simp only [encodeEntries, List.length_append, encodeEntry_length, ih,
      List.length_cons]
    ring

/-! ## `MemoryAreas::new` on a decoded tag header -/

theorem MemoryAreas_new_current (m : Mem) (r : ByteReader) :
    (MemoryAreas.new m r).current_entry = 0 := rfl

/-- The reader handed to the iterator sits 16 bytes past the tag start. -/
theorem MemoryAreas_new_reader (m : Mem) (t : Nat) :
    (MemoryAreas.new m (ByteReader.new t)).reader = ⟨(t + 16) % U⟩ := by
  simp only [MemoryAreas.new, ByteReader.new]
  rw [read_u32_reader, read_u32_reader, read_u32_reader, read_u32_reader]
  simp only [Nat.mod_add_mod]

/-- Decoding the 16-byte memory-map tag header at `t`. -/
theorem MemoryAreas_new_eq {m : Mem} {t total es : Nat}
    (htot : total < 2 ^ 32) (hes : es < 2 ^ 32) (ht : t + 16 < U)
    (h4 : m (t + 4) = total % 256)
    (h5 : m (t + 4 + 1) = total / 2 ^ 8 % 256)
    (h6 : m (t + 4 + 2) = total / 2 ^ 16 % 256)
    (h7 : m (t + 4 + 3) = total / 2 ^ 24 % 256)
    (h8 : m (t + 4 + 4) = es % 256)
    (h9 : m (t + 4 + 4 + 1) = es / 2 ^ 8 % 256)
    (h10 : m (t + 4 + 4 + 2) = es / 2 ^ 16 % 256)
    (h11 : m (t + 4 + 4 + 3) = es / 2 ^ 24 % 256) :
    MemoryAreas.new m (ByteReader.new t) =
      ⟨⟨t + 16⟩, es, ((total + 2 ^ 32 - 16) % 2 ^ 32) / es, 0⟩ := by
  simp only [MemoryAreas.new, ByteReader.new]
  rw [read_u32_reader ⟨t⟩ m]
  rw [show (t + 4) % U = t + 4 from Nat.mod_eq_of_lt (by omega)]
  rw [read_u32_eq htot (by omega) h4 h5 h6 h7]
  rw [read_u32_eq hes (by omega) h8 h9 h10 h11]
  rw [read_u32_reader ⟨t + 4 + 4 + 4⟩ m]
  simp only [MemoryAreas.mk.injEq, ByteReader.mk.injEq, and_true]
  rw [Nat.mod_eq_of_lt (by omega)]

/-- Decoding one 24-byte record whose bytes encode the entry `e`. -/
theorem readArea_eq {m : Mem} {c : Nat} (e : MemoryArea)
    (hb : e.base_addr < 2 ^ 64) (hl : e.length < 2 ^ 64)
    (hk : e.kind < 2 ^ 32) (hr : e.reserved < 2 ^ 32) (hc : c + 24 < U)
    (h : ∀ i, i < 24 → m (c + i) = (encodeEntry e).getD i 0) :
    readArea m c = e := by
  have hb0 : m c = e.base_addr % 256 := h 0 (by omega)
  have hb1 : m (c + 1) = e.base_addr / 2 ^ 8 % 256 := h 1 (by omega)
  have hb2 : m (c + 2) = e.base_addr / 2 ^ 16 % 256 := h 2 (by omega)
  have hb3 : m (c + 3) = e.base_addr / 2 ^ 24 % 256 := h 3 (by omega)
  have hb4 : m (c + 4) = e.base_addr / 2 ^ 32 % 256 := h 4 (by omega)
  have hb5 : m (c + 5) = e.base_addr / 2 ^ 40 % 256 := h 5 (by omega)
  have hb6 : m (c + 6) = e.base_addr / 2 ^ 48 % 256 := h 6 (by omega)
  have hb7 : m (c + 7) = e.base_addr / 2 ^ 56 % 256 := h 7 (by omega)
  have hl0 : m (c + 8) = e.length % 256 := h 8 (by omega)
  have hl1 : m (c + 8 + 1) = e.length / 2 ^ 8 % 256 := h 9 (by omega)
  have hl2 : m (c + 8 + 2) = e.length / 2 ^ 16 % 256 := h 10 (by omega)
  have hl3 : m (c + 8 + 3) = e.length / 2 ^ 24 % 256 := h 11 (by omega)
  have hl4 : m (c + 8 + 4) = e.length / 2 ^ 32 % 256 := h 12 (by omega)
  have hl5 : m (c + 8 + 5) = e.length / 2 ^ 40 % 256 := h 13 (by omega)
  have hl6 : m (c + 8 + 6) = e.length / 2 ^ 48 % 256 := h 14 (by omega)
  have hl7 : m (c + 8 + 7) = e.length / 2 ^ 56 % 256 := h 15 (by omega)
  have hk0 : m (c + 8 + 8) = e.kind % 256 := h 16 (by omega)
  have hk1 : m (c + 8 + 8 + 1) = e.kind / 2 ^ 8 % 256 := h 17 (by omega)
  have hk2 : m (c + 8 + 8 + 2) = e.kind / 2 ^ 16 % 256 := h 18 (by omega)
  have hk3 : m (c + 8 + 8 + 3) = e.kind / 2 ^ 24 % 256 := h 19 (by omega)
  have hr0 : m (c + 8 + 8 + 4) = e.reserved % 256 := h 20 (by omega)
  have hr1 : m (c + 8 + 8 + 4 + 1) = e.reserved / 2 ^ 8 % 256 := h 21 (by omega)
  have hr2 : m (c + 8 + 8 + 4 + 2) = e.reserved / 2 ^ 16 % 256 := h 22 (by omega)
  have hr3 : m (c + 8 + 8 + 4 + 3) = e.reserved / 2 ^ 24 % 256 := h 23 (by omega)
  simp only [readArea, ByteReader.new]
  rw [read_u64_eq hb (by omega) hb0 hb1 hb2 hb3 hb4 hb5 hb6 hb7]
  rw [read_u64_eq hl (by omega) hl0 hl1 hl2 hl3 hl4 hl5 hl6 hl7]
  rw [read_u32_eq hk (by omega) hk0 hk1 hk2 hk3]
  rw [read_u32_eq hr (by omega) hr0 hr1 hr2 hr3]

/-- Walking the packed entries: from position `24 + 24 * j` with `j`
entries already produced, the iterator returns exactly the remaining
entries, in order. -/
theorem takeAreas_entries (m : Mem) (N : Nat) (hUN : 24 + 24 * N < U) :
    ∀ (es : List MemoryArea) (j : Nat),
      j + es.length = N →
      (∀ e ∈ es, e.base_addr < 2 ^ 64 ∧ e.length < 2 ^ 64 ∧
        e.kind < 2 ^ 32 ∧ e.reserved < 2 ^ 32) →
      (∀ i, i < 24 * es.length →
        m (24 + 24 * j + i) = (encodeEntries es).getD i 0) →
      takeAreas m (es.length + 1) ⟨⟨24 + 24 * j⟩, 24, N, j⟩ = es := by
  intro es
  induction es with
  | nil =>
    intro j hj _ _
    rw [takeAreas, MemoryAreas_next_none m (by simp at hj ⊢; omega)]
  | cons e es ih =>
    intro j hj hb hm
    simp only [List.length_cons] at hj
    have hjN : j < N := by omega
    have hmul : 24 * (j + 1) ≤ 24 * N := Nat.mul_le_mul_left 24 (by omega)
    have hmulj : 24 * j ≤ 24 * N := Nat.mul_le_mul_left 24 (by omega)
    have hlen : 24 * (e :: es).length = 24 * es.length + 24 := by
      simp [List.length_cons]
      ring
    rw [takeAreas, MemoryAreas_next_some m (by simp; omega)]
    simp only [List.length_cons, ByteReader.skip]
    have hcur : (24 + 24 * j + 24) % U = 24 + 24 * (j + 1) := by
      rw [Nat.mod_eq_of_lt (by omega)]
      ring
    rw [hcur]
    congr 1
    · refine readArea_eq e (hb e (by simp)).1 (hb e (by simp)).2.1
        (hb e (by simp)).2.2.1 (hb e (by simp)).2.2.2 (by omega) ?_
      intro i hi
      rw [hm i (by omega)]
      exact (getD_within (encodeEntry e) (encodeEntries es) i
        (by rw [encodeEntry_length]; omega)).symm ▸
          (getD_within (encodeEntry e) (encodeEntries es) i
            (by rw [encodeEntry_length]; omega))
    · refine ih (j + 1) (by omega)
        (fun e' he' => hb e' (by simp [he'])) ?_
      intro i hi
      rw [show 24 + 24 * (j + 1) + i = 24 + 24 * j + (24 + i) by ring]
      rw [hm (24 + i) (by omega)]
      show (encodeEntry e ++ encodeEntries es).getD (24 + i) 0 = _
      exact getD_skip_n (encodeEntries es) (encodeEntry_length e) i

/-- One unfolding of the scan loop. -/
theorem parseLoop_step (m : Mem) (fuel : Nat) (r : ByteReader) (mm : Nat) :
    parseLoop m (fuel + 1) r mm =
      if (r.read_u32 m).1 = 6 then
        parseLoop m fuel ((((r.read_u32 m).2.read_u32 m).2.skip
          (tagSkipAmount ((r.read_u32 m).2.read_u32 m).1)).align 8) r.cursor
      else if (r.read_u32 m).1 = 0 then some mm
      else parseLoop m fuel ((((r.read_u32 m).2.read_u32 m).2.skip
        (tagSkipAmount ((r.read_u32 m).2.read_u32 m).1)).align 8) mm := by
  simp only [parseLoop]

/-- Bytes of the built structure from offset 8 (the memory-map tag). -/
theorem buildStructure_getD8 (el : List MemoryArea) (i : Nat) :
    memOf (buildStructure el) (8 + i) =
      (encodeU32 6 ++ (encodeU32 (16 + 24 * el.length) ++ (encodeU32 24 ++
        (encodeU32 0 ++ (encodeEntries el ++
          (encodeU32 0 ++ encodeU32 8)))))).getD i 0 := by
  show (buildStructure el).getD (8 + i) 0 = _
  simp only [buildStructure]
  rw [show 8 + i = 4 + (4 + i) by ring]
  rw [getD_skip_n _ (encodeU32_length _), getD_skip_n _ (encodeU32_length _)]

/-- Bytes of the built structure from offset 24 (the packed entries). -/
theorem buildStructure_getD24 (el : List MemoryArea) (i : Nat) :
    memOf (buildStructure el) (24 + i) =
      (encodeEntries el ++ (encodeU32 0 ++ encodeU32 8)).getD i 0 := by
  show (buildStructure el).getD (24 + i) 0 = _
  simp only [buildStructure]
  rw [show 24 + i = 4 + (4 + (4 + (4 + (4 + (4 + i))))) by ring]
  rw [getD_skip_n _ (encodeU32_length _), getD_skip_n _ (encodeU32_length _),
    getD_skip_n _ (encodeU32_length _), getD_skip_n _ (encodeU32_length _),
    getD_skip_n _ (encodeU32_length _), getD_skip_n _ (encodeU32_length _)]

/-- Bytes of the built structure at the terminating tag. -/
theorem buildStructure_getD_term (el : List MemoryArea) (i : Nat) :
    memOf (buildStructure el) (24 + 24 * el.length + i) =
      (encodeU32 0 ++ encodeU32 8).getD i 0 := by
  rw [show 24 + 24 * el.length + i = 24 + (24 * el.length + i) by ring]
  rw [buildStructure_getD24]
  exact getD_skip_n _ (encodeEntries_length el) i

/-- Scanning the built structure locates the memory-map tag at offset 8
and stops at the terminator. -/
theorem buildStructure_parse (el : List MemoryArea)
    (hN : 16 + 24 * el.length < 2 ^ 32) :
    Multiboot.new (memOf (buildStructure el)) 2 0 =
      some { start := 0, memory_map := 8 } := by
  have hN' : 16 + 24 * el.length < 4294967296 := by
    have h := hN
    norm_num at h
    exact h
  have i0 : memOf (buildStructure el) 8 = 6 % 256 := buildStructure_getD8 el 0
  have i1 : memOf (buildStructure el) (8 + 1) = 6 / 2 ^ 8 % 256 :=
    buildStructure_getD8 el 1
  have i2 : memOf (buildStructure el) (8 + 2) = 6 / 2 ^ 16 % 256 :=
    buildStructure_getD8 el 2
  have i3 : memOf (buildStructure el) (8 + 3) = 6 / 2 ^ 24 % 256 :=
    buildStructure_getD8 el 3
  have s0 : memOf (buildStructure el) (8 + 4) = (16 + 24 * el.length) % 256 :=
    buildStructure_getD8 el 4
  have s1 : memOf (buildStructure el) (8 + 4 + 1) =
      (16 + 24 * el.length) / 2 ^ 8 % 256 := buildStructure_getD8 el 5
  have s2 : memOf (buildStructure el) (8 + 4 + 2) =
      (16 + 24 * el.length) / 2 ^ 16 % 256 := buildStructure_getD8 el 6
  have s3 : memOf (buildStructure el) (8 + 4 + 3) =
      (16 + 24 * el.length) / 2 ^ 24 % 256 := buildStructure_getD8 el 7
  have t0 : memOf (buildStructure el) (24 + 24 * el.length) = 0 % 256 :=
    buildStructure_getD_term el 0
  have t1 : memOf (buildStructure el) (24 + 24 * el.length + 1) =
      0 / 2 ^ 8 % 256 := buildStructure_getD_term el 1
  have t2 : memOf (buildStructure el) (24 + 24 * el.length + 2) =
      0 / 2 ^ 16 % 256 := buildStructure_getD_term el 2
  have t3 : memOf (buildStructure el) (24 + 24 * el.length + 3) =
      0 / 2 ^ 24 % 256 := buildStructure_getD_term el 3
  have step2 : parseLoop (memOf (buildStructure el)) 1
      ⟨24 + 24 * el.length⟩ 8 = some 8 := by
    show parseLoop (memOf (buildStructure el)) (0 + 1)
      ⟨24 + 24 * el.length⟩ 8 = some 8
    rw [parseLoop_step,
      read_u32_eq (by norm_num) (by rw [U_val]; omega) t0 t1 t2 t3]
    simp only []
    rw [if_neg (by norm_num), if_pos trivial]
  have step1 : parseLoop (memOf (buildStructure el)) 2 ⟨8⟩ 0 = some 8 := by
    show parseLoop (memOf (buildStructure el)) (1 + 1) ⟨8⟩ 0 = some 8
    rw [parseLoop_step,
      read_u32_eq (by norm_num) (by rw [U_val]; omega) i0 i1 i2 i3]
    simp only []
    rw [if_pos trivial]
    rw [read_u32_eq hN (by rw [U_val]; omega) s0 s1 s2 s3]
    simp only []
    rw [tagSkipAmount_eq (by omega) (by rw [U_val]; omega)]
    simp only [ByteReader.skip]
    rw [show 8 + 4 + 4 + (16 + 24 * el.length - 8) = 24 + 24 * el.length
      by omega]
    rw [Nat.mod_eq_of_lt (by rw [U_val]; omega),
      align8_noop (by omega) (by rw [U_val]; omega)]
    exact step2
  rw [Multiboot_new_eq]
  rw [show (0 + 8) % U = 8 by rw [U_val]]
  show Option.map _ (parseLoop (memOf (buildStructure el)) 2 ⟨8⟩ 0) = _
  rw [step1]
  rfl

/-- Iterating the located memory-map tag of the built structure returns
exactly the written entries. -/
theorem buildStructure_areas (el : List MemoryArea)
    (hb : ∀ e ∈ el, e.base_addr < 2 ^ 64 ∧ e.length < 2 ^ 64 ∧
      e.kind < 2 ^ 32 ∧ e.reserved < 2 ^ 32)
    (hN : 16 + 24 * el.length < 2 ^ 32) :
    takeAreas (memOf (buildStructure el)) (el.length + 1)
      (Multiboot.memory_areas { start := 0, memory_map := 8 }
        (memOf (buildStructure el))) = el := by
  have hN' : 16 + 24 * el.length < 4294967296 := by
    have h := hN
    norm_num at h
    exact h
  have s0 : memOf (buildStructure el) (8 + 4) = (16 + 24 * el.length) % 256 :=
    buildStructure_getD8 el 4
  have s1 : memOf (buildStructure el) (8 + 4 + 1) =
      (16 + 24 * el.length) / 2 ^ 8 % 256 := buildStructure_getD8 el 5
  have s2 : memOf (buildStructure el) (8 + 4 + 2) =
      (16 + 24 * el.length) / 2 ^ 16 % 256 := buildStructure_getD8 el 6
  have s3 : memOf (buildStructure el) (8 + 4 + 3) =
      (16 + 24 * el.length) / 2 ^ 24 % 256 := buildStructure_getD8 el 7
  have e0 : memOf (buildStructure el) (8 + 4 + 4) = 24 % 256 :=
    buildStructure_getD8 el 8
  have e1 : memOf (buildStructure el) (8 + 4 + 4 + 1) = 24 / 2 ^ 8 % 256 :=
    buildStructure_getD8 el 9
  have e2 : memOf (buildStructure el) (8 + 4 + 4 + 2) = 24 / 2 ^ 16 % 256 :=
    buildStructure_getD8 el 10
  have e3 : memOf (buildStructure el) (8 + 4 + 4 + 3) = 24 / 2 ^ 24 % 256 :=
    buildStructure_getD8 el 11
  have hnew : MemoryAreas.new (memOf (buildStructure el)) (ByteReader.new 8) =
      ⟨⟨8 + 16⟩, 24, ((16 + 24 * el.length) + 2 ^ 32 - 16) % 2 ^ 32 / 24, 0⟩ :=
    MemoryAreas_new_eq hN (by norm_num) (by rw [U_val]; omega)
      s0 s1 s2 s3 e0 e1 e2 e3
  have hcount : ((16 + 24 * el.length) + 2 ^ 32 - 16) % 2 ^ 32 / 24 =
      el.length := by
    have h1 : (16 + 24 * el.length + 2 ^ 32 - 16) % 2 ^ 32 =
        24 * el.length := by omega
    rw [h1]
    omega
  have hEnt : ∀ i, i < 24 * el.length →
      memOf (buildStructure el) (24 + 24 * 0 + i) =
        (encodeEntries el).getD i 0 := by
    intro i hi
    rw [show 24 + 24 * 0 + i = 24 + i by ring, buildStructure_getD24]
    exact getD_within _ _ i (by rw [encodeEntries_length]; omega)
  simp only [Multiboot.memory_areas]
  rw [hnew, hcount]
  exact takeAreas_entries _ el.length (by rw [U_val]; omega) el 0
    (by simp) hb hEnt

/-! ## Claim theorems -/

/-- C7: the classification accessor returns `Usable` exactly when the
raw 32-bit type field is 1 and `Unusable` for every other code (in
particular 0, 2 and 3); the result enumeration is closed with exactly
these two values. -/
theorem C7_classification :
    (∀ a : MemoryArea,
      (a.kindType = MemoryAreaType.Usable ↔ a.kind = 1) ∧
      (a.kindType = MemoryAreaType.Unusable ↔ a.kind ≠ 1)) ∧
    (∀ a : MemoryArea, a.kind = 0 ∨ a.kind = 2 ∨ a.kind = 3 →
      a.kindType = MemoryAreaType.Unusable) ∧
    (∀ t : MemoryAreaType,
      t = MemoryAreaType.Usable ∨ t = MemoryAreaType.Unusable) := by
  refine ⟨?_, ?_, ?_⟩
  · intro a
    unfold MemoryArea.kindType
    by_cases h : a.kind = 1
    · simp [h]
    · simp [h]
  · intro a h
    unfold MemoryArea.kindType
    rw [if_neg (by omega)]
  · intro t
    cases t
    · exact Or.inl rfl
    · exact Or.inr rfl

theorem C7_witness :
    (MemoryArea.mk 0 0 1 0).kindType = MemoryAreaType.Usable ∧
    (MemoryArea.mk 0 0 0 0).kindType = MemoryAreaType.Unusable ∧
    (MemoryArea.mk 0 0 2 0).kindType = MemoryAreaType.Unusable ∧
    (MemoryArea.mk 0 0 3 0).kindType = MemoryAreaType.Unusable := by
  refine ⟨?_, ?_, ?_, ?_⟩
  · exact (C7_classification.1 _).1.mpr rfl
  · exact C7_classification.2.1 _ (Or.inl rfl)
  · exact C7_classification.2.1 _ (Or.inr (Or.inl rfl))
  · exact C7_classification.2.1 _ (Or.inr (Or.inr rfl))

/-- C8: the scanner skips tag bodies by `size - 8` with no validation
that `size ≥ 8`: for every declared size below 8 the wrapping `usize`
subtraction underflows to within 8 of `2 ^ 64`, while for `size ≥ 8` it
is the plain difference. -/
theorem C8_skip_underflow :
    (∀ s : Nat, s < 8 → tagSkipAmount s = U - (8 - s) ∧
      U - 8 ≤ tagSkipAmount s) ∧
    (∀ s : Nat, 8 ≤ s → s < U → tagSkipAmount s = s - 8) := by
  constructor
  · intro s h
    have h1 := tagSkipAmount_underflow h
    refine ⟨h1, ?_⟩
    rw [h1, U_val]
    omega
  · intro s h8 hs
    exact tagSkipAmount_eq h8 hs

theorem C8_witness :
    tagSkipAmount 4 = U - 4 ∧ U - 8 ≤ tagSkipAmount 4 ∧
      tagSkipAmount 12 = 4 := by
  refine ⟨(C8_skip_underflow.1 4 (by norm_num)).1,
    (C8_skip_underflow.1 4 (by norm_num)).2,
    C8_skip_underflow.2 12 (by norm_num) (by rw [U_val]; norm_num)⟩

/-- C10: on an exhausted iterator (`current_entry ≥ entry_count`),
`next` yields nothing and leaves the state exactly unchanged, so every
subsequent call yields nothing as well. -/
theorem C10_fused_iterator (m : Mem) (s : MemoryAreas)
    (h : s.entry_count ≤ s.current_entry) :
    s.next m = (none, s) ∧
      ∀ k, stepN m k s = s ∧ (stepN m k s).next m = (none, s) := by
  refine ⟨MemoryAreas_next_none m h, fun k => ⟨stepN_frozen m h k, ?_⟩⟩
  rw [stepN_frozen m h k]
  exact MemoryAreas_next_none m h

theorem C10_witness :
    (MemoryAreas.mk ⟨32⟩ 24 2 2).next (memOf []) =
      (none, MemoryAreas.mk ⟨32⟩ 24 2 2) ∧
    stepN (memOf []) 3 (MemoryAreas.mk ⟨32⟩ 24 2 2) =
      MemoryAreas.mk ⟨32⟩ 24 2 2 := by
  have h := C10_fused_iterator (memOf []) (MemoryAreas.mk ⟨32⟩ 24 2 2)
    (by decide)
  exact ⟨h.1, (h.2 3).1⟩

/-- C6: after skipping any tag body the cursor is realigned so that its
address is 0 modulo 8 before the next tag header is read; for a power
of two `a = 2 ^ k` the formula `(addr + a - 1) & !(a - 1)` yields the
next multiple of `a` and is a no-op on an already aligned address. -/
theorem C6_alignment :
    (∀ (r : ByteReader) (amt : Nat), ((r.skip amt).align 8).cursor % 8 = 0) ∧
    (∀ (k : Nat) (r : ByteReader), k ≤ 64 →
      (r.align (2 ^ k)).cursor % 2 ^ k = 0) ∧
    (∀ (k c : Nat), k ≤ 64 → c + 2 ^ k - 1 < U →
      c ≤ (ByteReader.align ⟨c⟩ (2 ^ k)).cursor ∧
      (ByteReader.align ⟨c⟩ (2 ^ k)).cursor < c + 2 ^ k ∧
      (c % 2 ^ k = 0 → (ByteReader.align ⟨c⟩ (2 ^ k)).cursor = c)) := by
  have hmask : ∀ k : Nat, (U - 2 ^ k) % U = U - 2 ^ k := by
    intro k
    apply Nat.mod_eq_of_lt
    have h1 : 0 < U := U_pos
    have h2 : 0 < 2 ^ k := Nat.two_pow_pos k
    omega
  refine ⟨fun r amt => align8_mod _, ?_, ?_⟩
  · intro k r hk
    show (((r.cursor + 2 ^ k - 1) % U) &&& ((U - 2 ^ k) % U)) % 2 ^ k = 0
    rw [hmask, land_mask _ k hk (Nat.mod_lt _ U_pos), Nat.mul_mod_right]
  · intro k c hk hcw
    have hA : 0 < 2 ^ k := Nat.two_pow_pos k
    have hx : (c + 2 ^ k - 1) % U = c + 2 ^ k - 1 := Nat.mod_eq_of_lt hcw
    have hcur : (ByteReader.align ⟨c⟩ (2 ^ k)).cursor =
        2 ^ k * ((c + 2 ^ k - 1) / 2 ^ k) := by
      show ((c + 2 ^ k - 1) % U) &&& ((U - 2 ^ k) % U) = _
      rw [hx, hmask]
      exact land_mask _ k hk (by omega)
    rw [hcur]
    have hdm := Nat.div_add_mod (c + 2 ^ k - 1) (2 ^ k)
    have hrem : (c + 2 ^ k - 1) % 2 ^ k < 2 ^ k := Nat.mod_lt _ hA
    refine ⟨by omega, by omega, ?_⟩
    intro hmod
    obtain ⟨t, rfl⟩ := Nat.dvd_of_mod_eq_zero hmod
    have h1 : 2 ^ k * t + 2 ^ k - 1 = 2 ^ k - 1 + 2 ^ k * t := by omega
    rw [h1, Nat.add_mul_div_left _ _ hA, Nat.div_eq_of_lt (by omega)]
    rw [Nat.zero_add]

theorem C6_witness :
    (((ByteReader.mk 5).skip 6).align 8).cursor % 8 = 0 ∧
    13 ≤ (ByteReader.align ⟨13⟩ (2 ^ 3)).cursor ∧
    (ByteReader.align ⟨13⟩ (2 ^ 3)).cursor < 13 + 2 ^ 3 ∧
    (ByteReader.align ⟨16⟩ (2 ^ 3)).cursor = 16 := by
  have h1 := C6_alignment.1 ⟨5⟩ 6
  have h2 := C6_alignment.2.2 3 13 (by norm_num) (by rw [U_val]; norm_num)
  have h3 := (C6_alignment.2.2 3 16 (by norm_num)
    (by rw [U_val]; norm_num)).2.2 (by norm_num)
  exact ⟨h1, h2.1, h2.2.1, h3⟩

/-- C5: the scan terminates only by reading a type-0 tag — every
successful trace ends at the first type-0 tag; a structure lacking a
terminator is walked without bound (no fuel suffices, shown on the
all-ones memory, whose tags are never type 0); and `new` is exactly the
unbounded loop started just past the 8-byte header — the total-size
field it reads never bounds the scan. -/
theorem C5_scan_termination :
    (∀ (m : Mem) (fuel : Nat) (r : ByteReader) (mm res : Nat),
      parseLoop m fuel r mm = some res →
      (scanTags m fuel r).isSome = true ∧
      ∀ l, scanTags m fuel r = some l →
        l.getLast?.map Prod.snd = some 0 ∧ ∀ p ∈ l.dropLast, p.2 ≠ 0) ∧
    (∀ (fuel : Nat) (r : ByteReader) (mm : Nat),
      parseLoop onesMem fuel r mm = none) ∧
    (∀ (m : Mem) (fuel start : Nat),
      Multiboot.new m fuel start =
        (parseLoop m fuel (ByteReader.new ((start + 8) % U)) 0).map
          fun mm => { start := start, memory_map := mm }) := by
  refine ⟨?_, parseLoop_onesMem_none, Multiboot_new_eq⟩
  intro m fuel r mm res h
  rw [parseLoop_eq_scanTags] at h
  obtain ⟨l, hsc, -⟩ := Option.map_eq_some'.mp h
  refine ⟨by rw [hsc]; rfl, ?_⟩
  intro l' hsc'
  rw [hsc, Option.some.injEq] at hsc'
  subst hsc'
  obtain ⟨⟨c0, hlast⟩, hdrop⟩ := scanTags_shape m fuel r l hsc
  exact ⟨by rw [hlast]; rfl, hdrop⟩

theorem C5_witness :
    ([((0 : Nat), (0 : Nat))].getLast?.map Prod.snd = some 0) ∧
    parseLoop onesMem 5 ⟨0⟩ 0 = none ∧
    Multiboot.new (memOf []) 1 0 =
      (parseLoop (memOf []) 1 (ByteReader.new ((0 + 8) % U)) 0).map
        (fun mm => { start := 0, memory_map := mm }) := by
  refine ⟨?_, C5_scan_termination.2.1 5 ⟨0⟩ 0,
    C5_scan_termination.2.2 (memOf []) 1 0⟩
  exact ((C5_scan_termination.1 (memOf []) 1 ⟨0⟩ 0 0 (by decide)).2
    [(0, 0)] (by decide)).1

/-- C9: a type-6 tag does not stop the scan — the loop continues after
recording it — and after a successful parse the recorded memory-map
address is the start of the *last* type-6 tag of the trace (each later
occurrence overwrites the previous one). -/
theorem C9_last_memory_map_tag :
    (∀ (m : Mem) (fuel : Nat) (r : ByteReader) (mm : Nat),
      (r.read_u32 m).1 = 6 →
      parseLoop m (fuel + 1) r mm =
        parseLoop m fuel ((((r.read_u32 m).2.read_u32 m).2.skip
          (tagSkipAmount ((r.read_u32 m).2.read_u32 m).1)).align 8)
          r.cursor) ∧
    (∀ (m : Mem) (fuel start : Nat) (mb : Multiboot) (l : List (Nat × Nat)),
      Multiboot.new m fuel start = some mb →
      scanTags m fuel (ByteReader.new ((start + 8) % U)) = some l →
      (l.filter fun p => p.2 == 6) ≠ [] →
      ((l.filter fun p => p.2 == 6).map Prod.fst).getLast? =
        some mb.memory_map) := by
  constructor
  · intro m fuel r mm h6
    rw [parseLoop_step, if_pos h6]
  · intro m fuel start mb l hnew hsc hne
    rw [Multiboot_new_eq] at hnew
    obtain ⟨mm, hpl, rfl⟩ := Option.map_eq_some'.mp hnew
    rw [parseLoop_eq_scanTags, hsc] at hpl
    rw [Option.map_some', Option.some.injEq] at hpl
    show ((l.filter fun p => p.2 == 6).map Prod.fst).getLast? = some mm
    rw [← hpl, lastMM_eq_getLastD]
    have hne' : (l.filter fun p => p.2 == 6).map Prod.fst ≠ [] := by
      simpa using hne
    generalize (l.filter fun p => p.2 == 6).map Prod.fst = l2 at hne' ⊢
    cases l2 with
    | nil => exact absurd rfl hne'
    | cons a l2 =>
      rw [List.getLastD_eq_getLast?]
      cases h : (a :: l2).getLast? with
      | none => rw [List.getLast?_eq_none_iff] at h; exact absurd h (by simp)
      | some x => rfl

theorem C9_witness :
    (([((8 : Nat), (6 : Nat)), (48, 6), (72, 0)].filter
        (fun p => p.2 == 6)).map Prod.fst).getLast? = some 48 := by
  have h := C9_last_memory_map_tag.2 c9mem 3 0 { start := 0, memory_map := 48 }
    [(8, 6), (48, 6), (72, 0)] (by decide) (by decide) (by decide)
  exact h

/-- C1 counterexample: `c1mem` holds a structure at 64 whose tag
sequence contains no type-6 tag (the trace is just the terminator at
72), so the handle records the null address 0 — but requesting the
memory-area sequence is *not* an empty sequence: `memory_areas` blindly
decodes a tag header at address 0 and the very first `next` yields a
record (decoded from the bytes that happen to lie at address 16). -/
theorem C1_counterexample :
    Multiboot.new c1mem 1 64 = some { start := 64, memory_map := 0 } ∧
    scanTags c1mem 1 (ByteReader.new ((64 + 8) % U)) = some [(72, 0)] ∧
    (((Multiboot.mk 64 0).memory_areas c1mem).next c1mem).1 =
      some (readArea c1mem 16) ∧
    readArea c1mem 16 =
      { base_addr := 1048576, length := 4096, kind := 1, reserved := 0 } := by
  refine ⟨by decide, by decide, by decide, by decide⟩

/-- C1 (amended): for every structure whose tag sequence contains no
type-6 tag, the constructed handle records the null memory-map address
0; requesting the memory-area sequence then decodes a tag header at
address 0, and the number of records produced is the entry count
derived from whatever bytes lie there — the sequence is empty exactly
when that derived count is 0, not unconditionally. -/
theorem C1_no_mmap_tag (m : Mem) (fuel start : Nat) (mb : Multiboot)
    (l : List (Nat × Nat)) (t : Nat)
    (hnew : Multiboot.new m fuel start = some mb)
    (hsc : scanTags m fuel (ByteReader.new ((start + 8) % U)) = some l)
    (h6 : ∀ p ∈ l, p.2 ≠ 6) :
    mb.memory_map = 0 ∧
    mb.memory_areas m = MemoryAreas.new m (ByteReader.new 0) ∧
    (takeAreas m t (mb.memory_areas m)).length =
      min t (MemoryAreas.new m (ByteReader.new 0)).entry_count := by
  rw [Multiboot_new_eq] at hnew
  obtain ⟨mm, hpl, rfl⟩ := Option.map_eq_some'.mp hnew
  rw [parseLoop_eq_scanTags, hsc, Option.map_some', Option.some.injEq] at hpl
  have hz : mm = 0 := by rw [← hpl]; exact lastMM_of_no6 h6 0
  subst hz
  refine ⟨rfl, by simp only [Multiboot.memory_areas], ?_⟩
  rw [takeAreas_length]
  simp only [Multiboot.memory_areas, MemoryAreas_new_current, Nat.sub_zero]

theorem C1_witness :
    (Multiboot.mk 64 0).memory_map = 0 ∧
    (takeAreas c1mem 2 ((Multiboot.mk 64 0).memory_areas c1mem)).length =
      min 2 (MemoryAreas.new c1mem (ByteReader.new 0)).entry_count := by
  have h := C1_no_mmap_tag c1mem 1 64 (Multiboot.mk 64 0) [(72, 0)] 2
    (by decide) (by decide) (by decide)
  exact ⟨h.1, h.2.2⟩

/-- C2: building a structure buffer with any `N` handcrafted memory-map
entries of known base / length / type (fields within their machine
widths, sizes fitting in a `u32`), scanning it, and iterating the
located tag yields exactly the `N` written records, in order, with
`base()` and `size()` returning the exact written field values; the
`(N+1)`-th call yields nothing. -/
theorem C2_roundtrip (el : List MemoryArea)
    (hb : ∀ e ∈ el, e.base_addr < 2 ^ 64 ∧ e.length < 2 ^ 64 ∧
      e.kind < 2 ^ 32 ∧ e.reserved < 2 ^ 32)
    (hN : 16 + 24 * el.length < 2 ^ 32) :
    Multiboot.new (memOf (buildStructure el)) 2 0 =
        some { start := 0, memory_map := 8 } ∧
      takeAreas (memOf (buildStructure el)) (el.length + 1)
        (Multiboot.memory_areas { start := 0, memory_map := 8 }
          (memOf (buildStructure el))) = el ∧
      (takeAreas (memOf (buildStructure el)) (el.length + 1)
        (Multiboot.memory_areas { start := 0, memory_map := 8 }
          (memOf (buildStructure el)))).map MemoryArea.base =
        el.map MemoryArea.base_addr ∧
      (takeAreas (memOf (buildStructure el)) (el.length + 1)
        (Multiboot.memory_areas { start := 0, memory_map := 8 }
          (memOf (buildStructure el)))).map MemoryArea.size =
        el.map MemoryArea.length := by
  have h2 := buildStructure_areas el hb hN
  refine ⟨buildStructure_parse el hN, h2, ?_, ?_⟩
  · rw [h2]
    have hf : MemoryArea.base = MemoryArea.base_addr := funext fun a => rfl
    rw [hf]
  · rw [h2]
    have hf : MemoryArea.size = MemoryArea.length := funext fun a => rfl
    rw [hf]

theorem C2_witness :
    Multiboot.new (memOf (buildStructure [⟨1048576, 4096, 1, 0⟩])) 2 0 =
      some { start := 0, memory_map := 8 } ∧
    takeAreas (memOf (buildStructure [⟨1048576, 4096, 1, 0⟩])) 2
      (Multiboot.memory_areas { start := 0, memory_map := 8 }
        (memOf (buildStructure [⟨1048576, 4096, 1, 0⟩]))) =
      [⟨1048576, 4096, 1, 0⟩] := by
  have h := C2_roundtrip [⟨1048576, 4096, 1, 0⟩] (by decide) (by decide)
  exact ⟨h.1, h.2.1⟩

/-- C3: for a memory-map tag header declaring total size
`16 + es * N` with entry size `es > 0`, the iterator derives
`entry_count = (total_size - 16) / es = N` and produces exactly `N`
items before ending — for every `es`, including values strictly larger
than the 24-byte interpreted record layout. -/
theorem C3_entry_count (y es N : Nat) (rest : List Nat)
    (hes : 0 < es) (hes32 : es < 2 ^ 32) (hN : 16 + es * N < 2 ^ 32) :
    (MemoryAreas.new (memOf (encodeU32 y ++ (encodeU32 (16 + es * N) ++
        (encodeU32 es ++ (encodeU32 0 ++ rest)))))
      (ByteReader.new 0)).entry_count = N ∧
    ∀ t : Nat,
      (takeAreas (memOf (encodeU32 y ++ (encodeU32 (16 + es * N) ++
          (encodeU32 es ++ (encodeU32 0 ++ rest))))) t
        (MemoryAreas.new (memOf (encodeU32 y ++ (encodeU32 (16 + es * N) ++
          (encodeU32 es ++ (encodeU32 0 ++ rest)))))
          (ByteReader.new 0))).length = min t N := by
  have h4 : memOf (encodeU32 y ++ (encodeU32 (16 + es * N) ++
      (encodeU32 es ++ (encodeU32 0 ++ rest)))) (0 + 4) =
      (16 + es * N) % 256 := rfl
  have h5 : memOf (encodeU32 y ++ (encodeU32 (16 + es * N) ++
      (encodeU32 es ++ (encodeU32 0 ++ rest)))) (0 + 4 + 1) =
      (16 + es * N) / 2 ^ 8 % 256 := rfl
  have h6 : memOf (encodeU32 y ++ (encodeU32 (16 + es * N) ++
      (encodeU32 es ++ (encodeU32 0 ++ rest)))) (0 + 4 + 2) =
      (16 + es * N) / 2 ^ 16 % 256 := rfl
  have h7 : memOf (encodeU32 y ++ (encodeU32 (16 + es * N) ++
      (encodeU32 es ++ (encodeU32 0 ++ rest)))) (0 + 4 + 3) =
      (16 + es * N) / 2 ^ 24 % 256 := rfl
  have h8 : memOf (encodeU32 y ++ (encodeU32 (16 + es * N) ++
      (encodeU32 es ++ (encodeU32 0 ++ rest)))) (0 + 4 + 4) =
      es % 256 := rfl
  have h9 : memOf (encodeU32 y ++ (encodeU32 (16 + es * N) ++
      (encodeU32 es ++ (encodeU32 0 ++ rest)))) (0 + 4 + 4 + 1) =
      es / 2 ^ 8 % 256 := rfl
  have h10 : memOf (encodeU32 y ++ (encodeU32 (16 + es * N) ++
      (encodeU32 es ++ (encodeU32 0 ++ rest)))) (0 + 4 + 4 + 2) =
      es / 2 ^ 16 % 256 := rfl
  have h11 : memOf (encodeU32 y ++ (encodeU32 (16 + es * N) ++
      (encodeU32 es ++ (encodeU32 0 ++ rest)))) (0 + 4 + 4 + 3) =
      es / 2 ^ 24 % 256 := rfl
  have hnew : MemoryAreas.new (memOf (encodeU32 y ++
      (encodeU32 (16 + es * N) ++ (encodeU32 es ++ (encodeU32 0 ++ rest)))))
      (ByteReader.new 0) =
      ⟨⟨0 + 16⟩, es, ((16 + es * N) + 2 ^ 32 - 16) % 2 ^ 32 / es, 0⟩ :=
    MemoryAreas_new_eq hN hes32 (by rw [U_val]; norm_num)
      h4 h5 h6 h7 h8 h9 h10 h11
  have hcount : ((16 + es * N) + 2 ^ 32 - 16) % 2 ^ 32 / es = N := by
    have h2 : es * N < 2 ^ 32 := by omega
    have h1 : (16 + es * N + 2 ^ 32 - 16) % 2 ^ 32 = es * N := by omega
    rw [h1]
    exact Nat.mul_div_cancel_left N hes
  constructor
  · rw [hnew]
    exact hcount
  · intro t
    rw [hnew, takeAreas_length]
    simp only [Nat.sub_zero]
    rw [hcount]

theorem C3_witness :
    (MemoryAreas.new (memOf (encodeU32 6 ++ (encodeU32 (16 + 40 * 2) ++
        (encodeU32 40 ++ (encodeU32 0 ++ [])))))
      (ByteReader.new 0)).entry_count = 2 ∧
    (takeAreas (memOf (encodeU32 6 ++ (encodeU32 (16 + 40 * 2) ++
        (encodeU32 40 ++ (encodeU32 0 ++ []))))) 3
      (MemoryAreas.new (memOf (encodeU32 6 ++ (encodeU32 (16 + 40 * 2) ++
        (encodeU32 40 ++ (encodeU32 0 ++ [])))))
        (ByteReader.new 0))).length = min 3 2 := by
  have h := C3_entry_count 6 40 2 [] (by norm_num) (by norm_num) (by norm_num)
  exact ⟨h.1, h.2 3⟩

/-- C4: on every successful step (`k` records already produced, with
`k < entry_count`), `next` captures the current cursor as the record's
location, yields the view decoded at that captured address, advances
the cursor by exactly the declared `entry_size`, and bumps the counter;
hence the k-th yielded record lies at `tag_start + 16 + k * entry_size`. -/
theorem C4_iteration_step (m : Mem) (t k : Nat)
    (hU : t + 16 + (MemoryAreas.new m (ByteReader.new t)).entry_count *
      (MemoryAreas.new m (ByteReader.new t)).entry_size < U)
    (hk : k < (MemoryAreas.new m (ByteReader.new t)).entry_count) :
    (stepN m k (MemoryAreas.new m (ByteReader.new t))).reader.cursor =
      t + 16 + k * (MemoryAreas.new m (ByteReader.new t)).entry_size ∧
    (stepN m k (MemoryAreas.new m (ByteReader.new t))).current_entry = k ∧
    ((stepN m k (MemoryAreas.new m (ByteReader.new t))).next m).1 =
      some (readArea m
        (t + 16 + k * (MemoryAreas.new m (ByteReader.new t)).entry_size)) ∧
    ((stepN m k (MemoryAreas.new m (ByteReader.new t))).next m).2 =
      stepN m (k + 1) (MemoryAreas.new m (ByteReader.new t)) ∧
    (stepN m (k + 1) (MemoryAreas.new m (ByteReader.new t))).reader.cursor =
      t + 16 + (k + 1) * (MemoryAreas.new m (ByteReader.new t)).entry_size := by
  have h2 : (t + 16) % U = t + 16 := Nat.mod_eq_of_lt (by omega)
  have hs0 : MemoryAreas.new m (ByteReader.new t) =
      ⟨⟨t + 16⟩, (MemoryAreas.new m (ByteReader.new t)).entry_size,
        (MemoryAreas.new m (ByteReader.new t)).entry_count, 0⟩ := by
    rw [← h2, ← MemoryAreas_new_reader m t]
    rfl
  generalize hE : (MemoryAreas.new m (ByteReader.new t)).entry_size = es
    at hs0 hU ⊢
  generalize hC : (MemoryAreas.new m (ByteReader.new t)).entry_count = cnt
    at hs0 hU hk ⊢
  rw [hs0]
  have hle : k * es ≤ cnt * es := Nat.mul_le_mul_right es (by omega)
  have hle1 : (k + 1) * es ≤ cnt * es := Nat.mul_le_mul_right es (by omega)
  have hsucc : (k + 1) * es = k * es + es := Nat.succ_mul k es
  have hrun := stepN_run m es cnt (t + 16) (by omega) k (by omega)
  have hrun1 := stepN_run m es cnt (t + 16) (by omega) (k + 1) (by omega)
  rw [hrun, hrun1]
  have hnext := MemoryAreas_next_some m
    (s := ⟨⟨t + 16 + k * es⟩, es, cnt, k⟩) hk
  refine ⟨rfl, rfl, ?_, ?_, rfl⟩
  · rw [hnext]
  · rw [hnext]
    simp only [ByteReader.skip]
    simp only [MemoryAreas.mk.injEq, ByteReader.mk.injEq, and_true]
    rw [Nat.mod_eq_of_lt (by omega)]
    omega

theorem C4_witness :
    ((stepN (memOf (encodeU32 6 ++ (encodeU32 64 ++ (encodeU32 24 ++
          (encodeU32 0 ++ List.replicate 48 0))))) 1
        (MemoryAreas.new (memOf (encodeU32 6 ++ (encodeU32 64 ++
          (encodeU32 24 ++ (encodeU32 0 ++ List.replicate 48 0)))))
          (ByteReader.new 0))).next
        (memOf (encodeU32 6 ++ (encodeU32 64 ++ (encodeU32 24 ++
          (encodeU32 0 ++ List.replicate 48 0)))))).1 =
      some (readArea (memOf (encodeU32 6 ++ (encodeU32 64 ++ (encodeU32 24 ++
          (encodeU32 0 ++ List.replicate 48 0)))))
        (0 + 16 + 1 * (MemoryAreas.new (memOf (encodeU32 6 ++ (encodeU32 64 ++
          (encodeU32 24 ++ (encodeU32 0 ++ List.replicate 48 0)))))
          (ByteReader.new 0)).entry_size)) ∧
    (stepN (memOf (encodeU32 6 ++ (encodeU32 64 ++ (encodeU32 24 ++
        (encodeU32 0 ++ List.replicate 48 0))))) 2
      (MemoryAreas.new (memOf (encodeU32 6 ++ (encodeU32 64 ++
        (encodeU32 24 ++ (encodeU32 0 ++ List.replicate 48 0)))))
        (ByteReader.new 0))).reader.cursor =
      0 + 16 + 2 * (MemoryAreas.new (memOf (encodeU32 6 ++ (encodeU32 64 ++
        (encodeU32 24 ++ (encodeU32 0 ++ List.replicate 48 0)))))
        (ByteReader.new 0)).entry_size := by
  have h := C4_iteration_step (memOf (encodeU32 6 ++ (encodeU32 64 ++
    (encodeU32 24 ++ (encodeU32 0 ++ List.replicate 48 0))))) 0 1
    (by decide) (by decide)
  exact ⟨h.2.2.1, h.2.2.2.2⟩
